import Mathlib

/-!
# Verification of the AutoDiff Python binding core

Shallow embedding of `auto-diff-python` (the Python binding layer of the
AutoDiff automatic-differentiation engine) together with a model of the
engine semantics described by the specification.

* `AutoDiffPy.Evaluator` and `AutoDiffPy.VarEvaluator` embed the two
  `Evaluator` template variants of `src/include/AutoDiff/Python/Evaluator.hpp`.
* The graph / `Function` machinery (dependency discovery, topological
  compilation, forward and reverse propagation) lives in the external
  `AutoDiff` C++ library which is not part of this repository's sources;
  those parts are modelled from the specification, as marked in the
  individual doc comments.

Values are modelled by `ℤ`: the specification's scenario values are integers
and the elementary rules modelled here (addition, multiplication, literals)
stay within `ℤ`; machine `double` rounding is not modelled.
-/

namespace AutoDiffPy

/-! ## Evaluator models (from `Evaluator.hpp`) -/

/-- The state of the underlying expression instance wrapped by the general
(caching-variant) `Evaluator<Expr>`.  `val`/`tangent` are the results that
`_value()` / `_pushForward()` currently compute; the three counters record
how often `_value()`, `_pushForward()` and `_releaseCache()` have been
invoked on the expression, making the wrapper's recomputation behaviour
observable. -/
structure OpExpr where
  val : ℤ
  tangent : ℤ
  valueCalls : Nat
  forwardCalls : Nat
  releaseCalls : Nat
deriving DecidableEq, Repr

/-- Embedding of the general (non-`AbstractVariable`) specialization
`Evaluator<Expr>` of `Evaluator.hpp`.  `mValuePtr` / `mDerivativePtr` model
the two `std::unique_ptr` members; the `Nat` component is the allocation
identity of the owned object (each `std::make_unique` yields a fresh one,
counted by `nextAlloc`), so that reference identity of the returned value is
observable. -/
structure Evaluator where
  mExpression : OpExpr
  mValuePtr : Option (Nat × ℤ)
  mDerivativePtr : Option (Nat × ℤ)
  nextAlloc : Nat
deriving DecidableEq, Repr

/-- `Evaluator::value()` (caching variant, `Evaluator.hpp` lines 61-65):
`mValuePtr = std::make_unique<Value>(mExpression._value()); return *mValuePtr;`.
It invokes `mExpression._value()`, stores the result in a freshly allocated
owned object replacing the previous one, and returns (a reference to) it. -/
def Evaluator.value (e : Evaluator) : (Nat × ℤ) × Evaluator :=
  let v := e.mExpression.val
  ((e.nextAlloc, v),
    { e with
      mExpression := { e.mExpression with valueCalls := e.mExpression.valueCalls + 1 }
      mValuePtr := some (e.nextAlloc, v)
      nextAlloc := e.nextAlloc + 1 })

/-- `Evaluator::pushForward()` (caching variant, `Evaluator.hpp` lines 67-72):
same shape as `value()`, over `mDerivativePtr`. -/
def Evaluator.pushForward (e : Evaluator) : (Nat × ℤ) × Evaluator :=
  let d := e.mExpression.tangent
  ((e.nextAlloc, d),
    { e with
      mExpression := { e.mExpression with forwardCalls := e.mExpression.forwardCalls + 1 }
      mDerivativePtr := some (e.nextAlloc, d)
      nextAlloc := e.nextAlloc + 1 })

/-- `Evaluator::releaseCache()` (caching variant, `Evaluator.hpp` lines 79-84):
resets both owned pointers and forwards the release to the expression. -/
def Evaluator.releaseCache (e : Evaluator) : Evaluator :=
  { e with
    mValuePtr := none
    mDerivativePtr := none
    mExpression := { e.mExpression with releaseCalls := e.mExpression.releaseCalls + 1 } }

/-- The per-cycle caching property the specification ascribes to the caching
`Evaluator`, stated at one evaluator: after a first `value()` call, a second
`value()` call in the same cycle (no `releaseCache()` in between) performs no
new computation of the wrapped expression and returns the same reference and
result; likewise for `pushForward()`. -/
def cachesPerCycle (e : Evaluator) : Prop :=
  ((e.value.2.value).2.mExpression.valueCalls = e.value.2.mExpression.valueCalls
      ∧ (e.value.2.value).1 = e.value.1)
    ∧ ((e.pushForward.2.pushForward).2.mExpression.forwardCalls
          = e.pushForward.2.mExpression.forwardCalls
        ∧ (e.pushForward.2.pushForward).1 = e.pushForward.1)

instance (e : Evaluator) : Decidable (cachesPerCycle e) := by
  unfold cachesPerCycle; infer_instance

/-- The underlying `AutoDiff::Variable` as seen through the binding: it owns a
persistent cached value and derivative.  `releaseCalls` counts how often a
cache release has been forwarded to it (`_releaseCache()`), making release
propagation observable. -/
structure PVar where
  val : ℤ
  deriv : ℤ
  releaseCalls : Nat
deriving DecidableEq, Repr

/-- Embedding of the `AbstractVariable` specialization
`Evaluator<Var>` (`Evaluator.hpp` lines 94-131): a non-caching passthrough
holding only the variable. -/
structure VarEvaluator where
  mVariable : PVar
deriving DecidableEq, Repr

/-- `Evaluator<Var>::value()` (`Evaluator.hpp` lines 112-115): delegates to
the variable's persistent cache, no evaluator-owned state. -/
def VarEvaluator.value (e : VarEvaluator) : ℤ × VarEvaluator :=
  (e.mVariable.val, e)

/-- `Evaluator<Var>::pushForward()` (`Evaluator.hpp` lines 117-120). -/
def VarEvaluator.pushForward (e : VarEvaluator) : ℤ × VarEvaluator :=
  (e.mVariable.deriv, e)

/-- `Evaluator<Var>::releaseCache()` (`Evaluator.hpp` line 127):
`void releaseCache() final { } // no cache` — the body is empty; in
particular no release is forwarded to the variable. -/
def VarEvaluator.releaseCache (e : VarEvaluator) : VarEvaluator := e

/-! ## Graph model

Modelled from the spec: the computation-graph engine (node identity, defining
expressions, dependency discovery, topological compilation, forward/reverse
propagation) lives in the external `AutoDiff` C++ library, of which this
repository only contains the binding layer.  The definitions below follow the
specification's data model (sections 3 and 4). -/

/-- Modelled from the spec: a defining expression — a composition of literals
and references to `Variable` identities through elementary rules (the
elementary-rule library is out of the core's scope; addition and
multiplication stand for it, each with a value rule, a forward-derivative
rule and a reverse-derivative rule). -/
inductive Expr where
  | const : ℤ → Expr
  | ref : Nat → Expr
  | add : Expr → Expr → Expr
  | mul : Expr → Expr → Expr
deriving DecidableEq, Repr

/-- The `Variable` identities an expression references (its operand edges). -/
def Expr.refs : Expr → List Nat
  | .const _ => []
  | .ref n => [n]
  | .add a b => a.refs ++ b.refs
  | .mul a b => a.refs ++ b.refs

/-- Modelled from the spec: a `Variable`'s state — its current defining
expression, its persistent cached value and its persistent cached
derivative. -/
structure VarState where
  expr : Expr
  val : ℤ
  deriv : ℤ
deriving DecidableEq, Repr

/-- The computation graph: an association of node identities (opaque `Nat`
handles) to variable states. -/
abbrev Graph := List (Nat × VarState)

/-- Look up the state of a node identity. -/
def Graph.find? (g : Graph) (n : Nat) : Option VarState :=
  (List.find? (fun p => p.1 == n) g).map Prod.snd

/-- The cached value of a node (0 for an unknown identity). -/
def Graph.valOf (g : Graph) (n : Nat) : ℤ :=
  ((Graph.find? g n).map VarState.val).getD 0

/-- The cached derivative of a node (0 for an unknown identity). -/
def Graph.derivOf (g : Graph) (n : Nat) : ℤ :=
  ((Graph.find? g n).map VarState.deriv).getD 0

/-- The dependency edges of a node: the identities referenced by its defining
expression. -/
def Graph.depsOf (g : Graph) (n : Nat) : List Nat :=
  match Graph.find? g n with
  | some vs => vs.expr.refs
  | none => []

/-- Rewrite the state of one node identity in place. -/
def Graph.update (g : Graph) (n : Nat) (f : VarState → VarState) : Graph :=
  g.map (fun p => if p.1 = n then (p.1, f p.2) else p)

/-- Modelled from the spec: evaluating an expression reads the referenced
variables' cached values (the value rule of each elementary operation). -/
def evalExpr (g : Graph) : Expr → ℤ
  | .const c => c
  | .ref n => Graph.valOf g n
  | .add a b => evalExpr g a + evalExpr g b
  | .mul a b => evalExpr g a * evalExpr g b

/-- Modelled from the spec: the forward (tangent) derivative of an expression,
combining the referenced variables' tangents through the elementary rules'
forward derivative functions. -/
def fwdExpr (g : Graph) : Expr → ℤ
  | .const _ => 0
  | .ref n => Graph.derivOf g n
  | .add a b => fwdExpr g a + fwdExpr g b
  | .mul a b => fwdExpr g a * evalExpr g b + evalExpr g a * fwdExpr g b

/-- Add an adjoint contribution to a node's cached derivative. -/
def Graph.addDeriv (g : Graph) (n : Nat) (c : ℤ) : Graph :=
  Graph.update g n (fun vs => { vs with deriv := vs.deriv + c })

/-- Modelled from the spec: `pullBack` — push a gradient backward into the
operands of an expression, accumulating adjoint contributions into the
referenced variables' derivatives via the elementary rules' reverse
derivative functions. -/
def pullExpr (g : Graph) : Expr → ℤ → Graph
  | .const _, _ => g
  | .ref n, gr => Graph.addDeriv g n gr
  | .add a b, gr => pullExpr (pullExpr g a gr) b gr
  | .mul a b, gr => pullExpr (pullExpr g a (gr * evalExpr g b)) b (evalExpr g a * gr)

/-- Create a new `Variable` from a literal (`var(value)`): its defining
expression is the literal and its cached value is set eagerly. -/
def Graph.newVarLit (g : Graph) (n : Nat) (c : ℤ) : Graph :=
  g ++ [(n, ⟨Expr.const c, c, 0⟩)]

/-- Create a new `Variable` from an expression (`var(expression)`): the
expression is immediately evaluated (eager evaluation). -/
def Graph.newVarExpr (g : Graph) (n : Nat) (e : Expr) : Graph :=
  g ++ [(n, ⟨e, evalExpr g e, 0⟩)]

/-- `Variable::set(Value)`: replace the defining expression by the literal and
cache it. -/
def Graph.setValue (g : Graph) (n : Nat) (c : ℤ) : Graph :=
  Graph.update g n (fun vs => { vs with expr := Expr.const c, val := c })

/-- Modelled from the spec: `Variable::set(expression)` (re-seating) —
replaces the defining expression and immediately evaluates it (eager
evaluation), reading the operand values cached at the moment of
assignment. -/
def Graph.setExpr (g : Graph) (n : Nat) (e : Expr) : Graph :=
  Graph.update g n (fun vs => { vs with expr := e, val := evalExpr g e })

/-- `Variable::setDerivative`. -/
def Graph.setDerivative (g : Graph) (n : Nat) (d : ℤ) : Graph :=
  Graph.update g n (fun vs => { vs with deriv := d })

/-! ## Dependency discovery

Modelled from the spec (§4.2): `compile()` "performs a dependency walk from
each target backward through operand edges, stopping at nodes in the source
set (if non-empty) or at literal leaves otherwise".  The walk is modelled as
the saturation of the target set under the operand edges of non-stop
nodes. -/

/-- Whether the backward walk stops at a node: it does exactly at members of
the source set (for an empty source set it stops only at literal leaves,
which have no operand edges to walk anyway). -/
def stopAt (S : List Nat) (n : Nat) : Bool := S.contains n

/-- One saturation step of the dependency walk: append the not-yet-reached
operand edges of the non-stop nodes reached so far. -/
def exStep (g : Graph) (S : List Nat) (cur : List Nat) : List Nat :=
  cur ++ (((cur.filter (fun n => !stopAt S n)).flatMap (Graph.depsOf g)).filter
    (fun m => !cur.contains m)).dedup

/-- All node identities that could ever be discovered: the targets, the graph
keys and every referenced identity. -/
def allNodes (g : Graph) (T : List Nat) : List Nat :=
  (T ++ g.map Prod.fst ++ g.flatMap (fun p => p.2.expr.refs)).dedup

/-- The discovered node set of a `Function` with targets `T` and sources `S`:
the saturation of `T` under the walk, reached after at most
`(allNodes g T).length + 1` steps. -/
def discover (g : Graph) (T S : List Nat) : List Nat :=
  (exStep g S)^[(allNodes g T).length + 1] T.dedup

/-! ## Topological compilation

Modelled from the spec (§4.2): compilation "builds a topological order over
the discovered node set such that every node appears after all nodes it
depends on" and "detects cycles ... and fails with a `CyclicDependencyError`
if found".  The order is built by repeatedly placing a discovered node all of
whose in-set operand edges are already placed; if no such node exists while
nodes remain, the remaining nodes form a cycle. -/

/-- The error taxonomy of the specification (§7); all are surfaced as
`RuntimeError` at the binding. -/
inductive ADError where
  | emptyTargets
  | cyclicDependency
  | invalidSeed
  | notEvaluated
deriving DecidableEq, Repr

/-- The in-view dependency edges of a node: its operand edges restricted to
the discovered set, and cut at stop nodes (a source node is a boundary whose
own operands are outside the compiled view). -/
def edgeTargets (g : Graph) (S : List Nat) (D : List Nat) (n : Nat) : List Nat :=
  if stopAt S n then [] else (Graph.depsOf g n).filter (fun m => decide (m ∈ D))

/-- The in-view dependency relation: `Edge g S D a b` holds when node `a`
depends on node `b` inside the compiled view. -/
def Edge (g : Graph) (S : List Nat) (D : List Nat) (a b : Nat) : Prop :=
  b ∈ edgeTargets g S D a

/-- A node is ready to be placed when all its in-view dependencies are
already placed. -/
def ready (g : Graph) (S : List Nat) (D : List Nat) (acc : List Nat) (n : Nat) : Bool :=
  (edgeTargets g S D n).all (fun m => decide (m ∈ acc))

/-- One placement loop of the topological compilation: place ready nodes one
by one; fail with `CyclicDependencyError` when unplaced nodes remain but none
is ready.  `fuel` bounds the recursion; `R.length` is always sufficient. -/
def topoAux (g : Graph) (S : List Nat) (D : List Nat) :
    Nat → List Nat → List Nat → Except ADError (List Nat)
  | _, [], acc => .ok acc
  | 0, _ :: _, _ => .error .cyclicDependency
  | fuel + 1, x :: R, acc =>
    match (x :: R).find? (ready g S D acc) with
    | some r => topoAux g S D fuel ((x :: R).erase r) (acc ++ [r])
    | none => .error .cyclicDependency

/-- Modelled from the spec: `Function::compile` — discover the relevant node
set and build a topological order over it, detecting cycles. -/
def compileOrder (g : Graph) (T S : List Nat) : Except ADError (List Nat) :=
  let D := discover g T S
  topoAux g S D D.length D []

/-- Decidable statement that every element of a list is preceded by all of
its in-view dependencies (`seen` accumulates the already-read prefix). -/
def depsPrecede (g : Graph) (S : List Nat) (D : List Nat) :
    List Nat → List Nat → Bool
  | _, [] => true
  | seen, n :: rest => ready g S D seen n && depsPrecede g S D (seen ++ [n]) rest

/-! ## The Function state machine

Modelled from the spec (§4.2): states *uncompiled* (`order = none`),
*compiled* (`order = some _`), *evaluated* (`evaluated = true`); a
`Function` is a non-owning view, so the graph is passed separately. -/

/-- Modelled from the spec: the `Function` component — target and source
identities (deduplicated at construction, mirroring
`detail::createTargets` / `detail::createSources` of `common.cpp`, which
insert into sets), the compiled order if any, and whether a successful
`evaluate` happened. -/
structure Func where
  targets : List Nat
  sources : List Nat
  order : Option (List Nat)
  evaluated : Bool
deriving DecidableEq, Repr

/-- `Function` construction (`common.cpp` lines 67-101 and
`detail::createSources`/`createTargets` lines 18-34): the target and source
tuples are inserted into sets (modelled by `List.dedup`); construction fails
with `EmptyTargetsError` when the target set is empty. -/
def Func.make (targets sources : List Nat) : Except ADError Func :=
  if targets.dedup = [] then .error .emptyTargets
  else .ok ⟨targets.dedup, sources.dedup, none, false⟩

/-- `Function::compiled`. -/
def Func.compiled (f : Func) : Bool := f.order.isSome

/-- The compiled order of `f`, compiling implicitly when *uncompiled*
(spec §4.2: "Calling `evaluate`/`pushTangent`/`pullGradient` while
*uncompiled* triggers an implicit `compile()` first"). -/
def Func.getOrder (g : Graph) (f : Func) : Except ADError (List Nat) :=
  match f.order with
  | some ord => .ok ord
  | none => compileOrder g f.targets f.sources

/-- `Function::compile`. -/
def Func.compile (g : Graph) (f : Func) : Except ADError Func :=
  (compileOrder g f.targets f.sources).map (fun ord => { f with order := some ord })

/-- Modelled from the spec: the evaluation walk — traverse the compiled order
from sources to targets, recomputing each non-source node's cached value from
its defining expression (source values are the caller's responsibility). -/
def evalPass (g : Graph) (S : List Nat) : List Nat → Graph
  | [] => g
  | n :: rest =>
    evalPass
      (if stopAt S n then g
       else Graph.update g n (fun vs => { vs with val := evalExpr g vs.expr }))
      S rest

/-- Modelled from the spec: `Function::evaluate` — implicit compile, then the
evaluation walk; transitions to *evaluated*. -/
def Func.evaluate (g : Graph) (f : Func) : Except ADError (Graph × Func) :=
  (Func.getOrder g f).map
    (fun ord => (evalPass g f.sources ord, { f with order := some ord, evaluated := true }))

/-- An actual source of the compiled view: a node where the walk stopped (a
designated source) or a literal leaf; these are the nodes whose tangents seed
forward propagation and which the forward walk must not overwrite. -/
def actualSource (g : Graph) (S : List Nat) (n : Nat) : Bool :=
  stopAt S n || (Graph.depsOf g n).isEmpty

/-- Modelled from the spec: the forward (tangent) walk — traverse the
compiled order from sources to targets, storing at each non-source node the
tangent combined from its operands' tangents by the forward derivative
rules; actual sources keep their explicitly set tangents. -/
def fwdPass (g : Graph) (S : List Nat) : List Nat → Graph
  | [] => g
  | n :: rest =>
    fwdPass
      (if actualSource g S n then g
       else Graph.update g n (fun vs => { vs with deriv := fwdExpr g vs.expr }))
      S rest

/-- Modelled from the spec: `Function::pushTangent` — implicit compile, then
fails with `NotEvaluatedError` unless a successful `evaluate` happened,
then the forward walk. -/
def Func.pushTangent (g : Graph) (f : Func) : Except ADError (Graph × Func) :=
  Func.getOrder g f >>= fun ord =>
    if f.evaluated then .ok (fwdPass g f.sources ord, { f with order := some ord })
    else .error .notEvaluated

/-- Set the derivative of every listed node to 0, except the seed which gets
the identity tangent/gradient 1. -/
def seedDerivs (g : Graph) (l : List Nat) (seed : Nat) : Graph :=
  l.foldl (fun acc n => Graph.update acc n
    (fun vs => { vs with deriv := if n = seed then 1 else 0 })) g

/-- Modelled from the spec: `Function::pushTangentAt` — fails with
`InvalidSeedError` when the seed is not among the actual discovered sources;
otherwise zeroes all source tangents except the seed (set to the identity
tangent) and runs the forward walk (which requires *evaluated*). -/
def Func.pushTangentAt (g : Graph) (f : Func) (seed : Nat) :
    Except ADError (Graph × Func) :=
  Func.getOrder g f >>= fun ord =>
    let asrcs := ord.filter (fun n => actualSource g f.sources n)
    if seed ∈ asrcs then
      if f.evaluated then
        .ok (fwdPass (seedDerivs g asrcs seed) f.sources ord, { f with order := some ord })
      else .error .notEvaluated
    else .error .invalidSeed

/-- Zero the cached derivative of every discovered node that is not a target,
so that the reverse walk accumulates adjoints from a clean slate while the
targets keep their explicitly set gradients. -/
def zeroNonTargets (g : Graph) (T : List Nat) : List Nat → Graph
  | [] => g
  | n :: rest =>
    zeroNonTargets
      (if n ∈ T then g else Graph.update g n (fun vs => { vs with deriv := 0 }))
      T rest

/-- Modelled from the spec: the reverse (gradient) walk — traverse the
compiled order from targets back to sources, at each non-boundary node
pushing its accumulated gradient into its operands via the reverse
derivative rules (`pullBack`).  The argument list is the reversed compiled
order. -/
def revPass (g : Graph) (S : List Nat) : List Nat → Graph
  | [] => g
  | n :: rest =>
    revPass
      (if stopAt S n then g
       else match Graph.find? g n with
        | some vs => pullExpr g vs.expr vs.deriv
        | none => g)
      S rest

/-- Modelled from the spec: `Function::pullGradient` — implicit compile, then
fails with `NotEvaluatedError` unless a successful `evaluate` happened, then
the reverse walk over the reversed order, after clearing non-target
gradients. -/
def Func.pullGradient (g : Graph) (f : Func) : Except ADError (Graph × Func) :=
  Func.getOrder g f >>= fun ord =>
    if f.evaluated then
      .ok (revPass (zeroNonTargets g f.targets ord) f.sources ord.reverse,
        { f with order := some ord })
    else .error .notEvaluated

/-- Modelled from the spec: `Function::pullGradientAt` — fails with
`InvalidSeedError` when the seed is not a target; otherwise zeroes all target
gradients except the seed (set to the identity gradient) and performs
`pullGradient`. -/
def Func.pullGradientAt (g : Graph) (f : Func) (seed : Nat) :
    Except ADError (Graph × Func) :=
  Func.getOrder g f >>= fun ord =>
    if seed ∈ f.targets then
      if f.evaluated then
        .ok (revPass (zeroNonTargets (seedDerivs g f.targets seed) f.targets ord)
              f.sources ord.reverse,
          { f with order := some ord })
      else .error .notEvaluated
    else .error .invalidSeed

/-! ## The specification's scenario (C2) -/

/-- The graph of the scenario: `x = Variable(3.0)` is node 0 and
`u = Variable(x * 2)` is node 1 (created eagerly from the expression
`x * 2`). -/
def scnGraph : Graph :=
  Graph.newVarExpr (Graph.newVarLit [] 0 3) 1 (Expr.mul (.ref 0) (.const 2))

/-- The scenario run: `f = Function(u)`; `f.evaluate()` and read `u.value()`;
`x.setDerivative(1)`, `f.pushTangent()` and read `u.derivative()`;
`u.setDerivative(1)`, `f.pullGradient()` and read `x.derivative()`. -/
def scnRun : Except ADError (ℤ × ℤ × ℤ) :=
  Func.make [1] [] >>= fun f0 =>
  Func.evaluate scnGraph f0 >>= fun p1 =>
  let uval := Graph.valOf p1.1 1
  let g3 := Graph.setDerivative p1.1 0 1
  Func.pushTangent g3 p1.2 >>= fun p2 =>
  let uder := Graph.derivOf p2.1 1
  let g5 := Graph.setDerivative p2.1 1 1
  Func.pullGradient g5 p2.2 >>= fun p3 =>
  .ok (uval, uder, Graph.derivOf p3.1 0)


/-! ## Claim theorems for the Evaluator (C1, C10) -/

/-- C1 counterexample: the caching `Evaluator` does not cache per cycle.  At a
concrete evaluator (expression value 5, fresh caches), a second `value()`
call within the same cycle invokes `mExpression._value()` again and returns a
reference to a newly allocated object. -/
theorem evaluator_not_caching :
    ¬ cachesPerCycle ⟨⟨5, 7, 0, 0, 0⟩, none, none, 0⟩ := by decide

/-- C1 amended: `Evaluator::value()` recomputes the wrapped expression on
every call, stores the fresh result in newly allocated owned storage
(replacing the previous one) and returns it; since the computation does not
mutate the expression, repeated calls within a cycle return equal values
(though not the same reference); `pushForward()` behaves identically for the
derivative; `releaseCache()` clears both stored results and forwards the
release to the expression. -/
theorem evaluator_recomputes (e : Evaluator) :
    (e.value.1.2 = e.mExpression.val
        ∧ e.value.2.mValuePtr = some e.value.1
        ∧ e.value.2.mExpression.valueCalls = e.mExpression.valueCalls + 1
        ∧ (e.value.2.value).1.2 = e.value.1.2
        ∧ (e.value.2.value).1.1 ≠ e.value.1.1)
      ∧ (e.pushForward.1.2 = e.mExpression.tangent
          ∧ e.pushForward.2.mDerivativePtr = some e.pushForward.1
          ∧ e.pushForward.2.mExpression.forwardCalls = e.mExpression.forwardCalls + 1
          ∧ (e.pushForward.2.pushForward).1.2 = e.pushForward.1.2)
      ∧ (e.releaseCache.mValuePtr = none
          ∧ e.releaseCache.mDerivativePtr = none
          ∧ e.releaseCache.mExpression.releaseCalls = e.mExpression.releaseCalls + 1) :=
  ⟨⟨rfl, rfl, rfl, rfl, Nat.succ_ne_self e.nextAlloc⟩,
    ⟨rfl, rfl, rfl, rfl⟩, rfl, rfl, rfl⟩

/-- C10: for the `Variable` (passthrough) evaluator, `releaseCache()` is a
no-op: the evaluator state is unchanged, hence the variable's persistently
cached value and derivative are untouched and no release is forwarded to the
variable (its release counter is unchanged). -/
theorem varEvaluator_releaseCache_noop (e : VarEvaluator) :
    e.releaseCache = e
      ∧ e.releaseCache.mVariable.val = e.mVariable.val
      ∧ e.releaseCache.mVariable.deriv = e.mVariable.deriv
      ∧ e.releaseCache.mVariable.releaseCalls = e.mVariable.releaseCalls
      ∧ (e.releaseCache.value).1 = (e.value).1
      ∧ (e.releaseCache.pushForward).1 = (e.pushForward).1 :=
  ⟨rfl, rfl, rfl, rfl, rfl, rfl⟩

/-! ## Properties of dependency discovery -/

theorem subset_exStep (g : Graph) (S : List Nat) (cur : List Nat) :
    cur ⊆ exStep g S cur :=
  fun _ hx => List.mem_append_left _ hx

theorem mem_exStep_of_dep (g : Graph) (S : List Nat) {cur : List Nat} {n m : Nat}
    (hn : n ∈ cur) (hstop : stopAt S n = false) (hm : m ∈ Graph.depsOf g n) :
    m ∈ exStep g S cur := by
  by_cases hmc : m ∈ cur
  · exact List.mem_append_left _ hmc
  · refine List.mem_append_right _ (List.mem_dedup.2 (List.mem_filter.2 ⟨?_, ?_⟩))
    · exact List.mem_flatMap.2 ⟨n, List.mem_filter.2 ⟨hn, by simp [hstop]⟩, hm⟩
    · simpa using hmc

theorem mem_exStep (g : Graph) (S : List Nat) {cur : List Nat} {x : Nat}
    (hx : x ∈ exStep g S cur) :
    x ∈ cur ∨ ∃ n ∈ cur, x ∈ Graph.depsOf g n := by
  rcases List.mem_append.1 hx with h | h
  · exact Or.inl h
  · have h1 := List.mem_filter.1 (List.mem_dedup.1 h)
    obtain ⟨n, hn, hdep⟩ := List.mem_flatMap.1 h1.1
    exact Or.inr ⟨n, (List.mem_filter.1 hn).1, hdep⟩

theorem exStep_nodup (g : Graph) (S : List Nat) {cur : List Nat}
    (h : cur.Nodup) : (exStep g S cur).Nodup := by
  refine List.nodup_append.2 ⟨h, List.nodup_dedup _, fun a ha hb => ?_⟩
  have h2 := (List.mem_filter.1 (List.mem_dedup.1 hb)).2
  simp at h2
  exact h2 ha

theorem depsOf_subset_allNodes (g : Graph) (T : List Nat) (n : Nat) :
    Graph.depsOf g n ⊆ allNodes g T := by
  intro x hx
  unfold Graph.depsOf at hx
  cases h : Graph.find? g n with
  | none => rw [h] at hx; simp at hx
  | some vs =>
    rw [h] at hx
    unfold Graph.find? at h
    cases hf : List.find? (fun p => p.1 == n) g with
    | none => rw [hf] at h; simp at h
    | some p =>
      rw [hf] at h
      have h2 : p.2 = vs := by simpa using h
      have hp : p ∈ g := List.mem_of_find?_eq_some hf
      have hx' : x ∈ g.flatMap (fun q => q.2.expr.refs) :=
        List.mem_flatMap.2 ⟨p, hp, by rw [h2]; exact hx⟩
      exact List.mem_dedup.2 (List.mem_append_right _ hx')

theorem exStep_subset_allNodes (g : Graph) (T S : List Nat) {cur : List Nat}
    (h : cur ⊆ allNodes g T) : exStep g S cur ⊆ allNodes g T := by
  intro x hx
  rcases mem_exStep g S hx with hc | ⟨n, _, hdep⟩
  · exact h hc
  · exact depsOf_subset_allNodes g T n hdep

theorem iter_subset_allNodes (g : Graph) (T S : List Nat) (k : Nat) :
    (exStep g S)^[k] T.dedup ⊆ allNodes g T := by
  induction k with
  | zero =>
    intro x hx
    simp only [Function.iterate_zero, id] at hx
    exact List.mem_dedup.2 (List.mem_append_left _
      (List.mem_append_left _ (List.mem_dedup.1 hx)))
  | succ k ih =>
    rw [Function.iterate_succ_apply']
    exact exStep_subset_allNodes g T S ih

theorem iter_nodup (g : Graph) (T S : List Nat) (k : Nat) :
    ((exStep g S)^[k] T.dedup).Nodup := by
  induction k with
  | zero => simpa using List.nodup_dedup T
  | succ k ih =>
    rw [Function.iterate_succ_apply']
    exact exStep_nodup g S ih

theorem discover_nodup (g : Graph) (T S : List Nat) : (discover g T S).Nodup :=
  iter_nodup g T S _

theorem exStep_discover (g : Graph) (T S : List Nat) :
    exStep g S (discover g T S) = discover g T S := by
  set N := (allNodes g T).length with hN
  -- some iterate below N is already a fixed point
  have hgrow : ∀ cur : List Nat, exStep g S cur ≠ cur →
      cur.length + 1 ≤ (exStep g S cur).length := by
    intro cur hne
    unfold exStep at *
    rcases h : (((cur.filter (fun n => !stopAt S n)).flatMap (Graph.depsOf g)).filter
        (fun m => !cur.contains m)).dedup with _ | ⟨y, l⟩
    · rw [h] at hne; simp at hne
    · simp [List.length_append]
  have hstab : ∃ k, k ≤ N ∧
      exStep g S ((exStep g S)^[k] T.dedup) = (exStep g S)^[k] T.dedup := by
    by_contra hcon
    push_neg at hcon
    have hlen : ∀ k, k ≤ N + 1 → k ≤ ((exStep g S)^[k] T.dedup).length := by
      intro k hk
      induction k with
      | zero => exact Nat.zero_le _
      | succ k ih =>
        have hne := hcon k (Nat.lt_succ_iff.1 hk)
        have := hgrow _ hne
        have := ih (Nat.le_of_succ_le hk)
        rw [Function.iterate_succ_apply']
        omega
    have h1 := hlen (N + 1) le_rfl
    have h2 : ((exStep g S)^[N + 1] T.dedup).length ≤ N :=
      ((iter_nodup g T S (N + 1)).subperm (iter_subset_allNodes g T S (N + 1))).length_le
    omega
  obtain ⟨k, hk, hfix⟩ := hstab
  have hdisc : discover g T S = (exStep g S)^[k] T.dedup := by
    unfold discover
    rw [← hN, show N + 1 = (N + 1 - k) + k by omega, Function.iterate_add_apply]
    exact Function.iterate_fixed hfix (N + 1 - k)
  rw [hdisc, hfix]

/-- The discovered set is closed under the operand edges of non-stop members:
this is the saturation property of the dependency walk. -/
theorem discover_closed (g : Graph) (T S : List Nat) {n m : Nat}
    (hn : n ∈ discover g T S) (hstop : stopAt S n = false)
    (hm : m ∈ Graph.depsOf g n) : m ∈ discover g T S := by
  have h := mem_exStep_of_dep g S hn hstop hm
  rwa [exStep_discover] at h

/-! ## Basic graph-update lemmas -/

theorem Graph.find?_update (g : Graph) (n : Nat) (f : VarState → VarState) :
    Graph.find? (Graph.update g n f) n = (Graph.find? g n).map f := by
  induction g with
  | nil => rfl
  | cons p g ih =>
    unfold Graph.update Graph.find? at *
    by_cases h : p.1 = n
    · simp [List.find?, h]
    · simp only [List.map_cons, if_neg h, List.find?]
      have hb : (p.1 == n) = false := by simpa using h
      rw [hb]
      simpa using ih

/-! ## Claim theorems for the Function interface -/

/-- C8: `Variable.set(expression)` evaluates the assigned expression
immediately (eager evaluation): right after `set` returns, the variable's
cached value equals the value of the newly assigned expression, computed
from the operand values cached at assignment time, with no `Function`
evaluation involved; the defining expression is replaced and the cached
derivative is untouched. -/
theorem setExpr_eager (g : Graph) (n : Nat) (e : Expr) (vs : VarState)
    (h : Graph.find? g n = some vs) :
    Graph.find? (Graph.setExpr g n e) n = some ⟨e, evalExpr g e, vs.deriv⟩
      ∧ Graph.valOf (Graph.setExpr g n e) n = evalExpr g e := by
  have h1 : Graph.find? (Graph.setExpr g n e) n = some ⟨e, evalExpr g e, vs.deriv⟩ := by
    unfold Graph.setExpr
    rw [Graph.find?_update, h]
    rfl
  exact ⟨h1, by unfold Graph.valOf; rw [h1]; rfl⟩

theorem setExpr_eager_witness :
    Graph.find? (Graph.setExpr [(0, ⟨Expr.const 3, 3, 0⟩)] 0 (Expr.add (.ref 0) (.const 1))) 0
        = some ⟨Expr.add (.ref 0) (.const 1), 4, 0⟩
      ∧ Graph.valOf (Graph.setExpr [(0, ⟨Expr.const 3, 3, 0⟩)] 0 (Expr.add (.ref 0) (.const 1))) 0
        = 4 := by
  have h := setExpr_eager [(0, ⟨Expr.const 3, 3, 0⟩)] 0 (Expr.add (.ref 0) (.const 1))
    ⟨Expr.const 3, 3, 0⟩ rfl
  simpa using h

/-- C5: constructing a `Function` with an empty targets tuple always fails
with `EmptyTargetsError`, and construction with a non-empty targets tuple
never raises this error. -/
theorem make_emptyTargets (t s : List Nat) :
    (t = [] → Func.make t s = .error .emptyTargets)
      ∧ (t ≠ [] → Func.make t s ≠ .error .emptyTargets) := by
  constructor
  · intro h; subst h; rfl
  · intro h hcon
    unfold Func.make at hcon
    rw [if_neg (by simpa [List.dedup_eq_nil] using h)] at hcon
    exact absurd hcon (by simp)

theorem make_emptyTargets_witness :
    Func.make ([] : List Nat) [7] = .error .emptyTargets
      ∧ Func.make [5] [] ≠ .error .emptyTargets :=
  ⟨(make_emptyTargets [] [7]).1 rfl, (make_emptyTargets [5] []).2 (by simp)⟩

/-- C9: `Function` construction deduplicates targets and sources (node
identities are inserted into sets): construction from tuples equals
construction from the tuples with duplicates removed, and a tuple consisting
only of repetitions of one variable counts as that single variable — in
particular it is a non-empty target set. -/
theorem make_dedup :
    (∀ t s : List Nat, Func.make t s = Func.make t.dedup s.dedup)
      ∧ (∀ (v n : Nat) (s : List Nat), 0 < n →
          Func.make (List.replicate n v) s = Func.make [v] s) := by
  constructor
  · intro t s
    unfold Func.make
    rw [List.dedup_idem, List.dedup_idem]
  · intro v n s hn
    unfold Func.make
    rw [List.replicate_dedup (Nat.pos_iff_ne_zero.1 hn)]
    simp

theorem make_dedup_witness :
    Func.make [4, 4, 9] [2, 2] = Func.make [4, 9] [2]
      ∧ Func.make [4, 4, 4] [] = Func.make [4] [] := by
  constructor
  · have h := (make_dedup).1 [4, 4, 9] [2, 2]
    simpa using h
  · exact (make_dedup).2 4 3 [] (by decide)

/-- C6: calling `pullGradient()` on a `Function` before any successful
`evaluate()` of it (its *evaluated* flag is still false) fails with
`NotEvaluatedError`, and the same precondition applies to `pushTangent()` —
provided the implicit compile itself succeeds, which is the case in
particular whenever the function is already compiled. -/
theorem differentiate_before_evaluate (g : Graph) (f : Func) (ord : List Nat)
    (h1 : f.evaluated = false) (h2 : Func.getOrder g f = .ok ord) :
    Func.pullGradient g f = .error .notEvaluated
      ∧ Func.pushTangent g f = .error .notEvaluated := by
  unfold Func.pullGradient Func.pushTangent
  rw [h2]
  simp [h1, Bind.bind, Except.bind]

theorem differentiate_before_evaluate_witness :
    Func.pullGradient [] ⟨[0], [], some [0], false⟩ = .error .notEvaluated
      ∧ Func.pushTangent [] ⟨[0], [], some [0], false⟩ = .error .notEvaluated :=
  differentiate_before_evaluate [] ⟨[0], [], some [0], false⟩ [0] rfl rfl

/-- C7: for a compiled `Function`, `pushTangentAt(seed)` fails with
`InvalidSeedError` whenever the seed is not among the function's actual
discovered sources (the compiled order's boundary nodes), and
`pullGradientAt(seed)` fails with `InvalidSeedError` whenever the seed is
not a target of the function. -/
theorem invalid_seed (g : Graph) (f : Func) (ord : List Nat) (seed : Nat)
    (h : f.order = some ord) :
    (seed ∉ ord.filter (fun n => actualSource g f.sources n) →
        Func.pushTangentAt g f seed = .error .invalidSeed)
      ∧ (seed ∉ f.targets →
        Func.pullGradientAt g f seed = .error .invalidSeed) := by
  have hord : Func.getOrder g f = .ok ord := by unfold Func.getOrder; rw [h]
  constructor <;> intro hseed
  · unfold Func.pushTangentAt
    rw [hord]
    simp only [Bind.bind, Except.bind]
    rw [if_neg hseed]
  · unfold Func.pullGradientAt
    rw [hord]
    simp only [Bind.bind, Except.bind]
    rw [if_neg hseed]

theorem invalid_seed_witness :
    Func.pushTangentAt [] ⟨[0], [], some [0], false⟩ 5 = .error .invalidSeed
      ∧ Func.pullGradientAt [] ⟨[0], [], some [0], false⟩ 5 = .error .invalidSeed :=
  ⟨(invalid_seed [] ⟨[0], [], some [0], false⟩ [0] 5 rfl).1 (by decide),
    (invalid_seed [] ⟨[0], [], some [0], false⟩ [0] 5 rfl).2 (by decide)⟩

/-- C2: in the scenario `x = Variable(3.0)`, `u = Variable(x * 2)`,
`f = Function(u)`: every step succeeds, `f.evaluate()` yields
`u.value() = 6`, setting `x`'s tangent to 1 and calling `f.pushTangent()`
yields `u.derivative() = 2`, and setting `u`'s gradient to 1 and calling
`f.pullGradient()` yields `x.derivative() = 2`. -/
theorem scenario_eval_push_pull : scnRun = .ok (6, 2, 2) := rfl

/-! ## Soundness of the topological compilation -/

theorem ready_iff {g : Graph} {S D acc : List Nat} {n : Nat} :
    ready g S D acc n = true ↔ ∀ m ∈ edgeTargets g S D n, m ∈ acc := by
  simp [ready, List.all_eq_true]

theorem edgeTargets_subset (g : Graph) (S D : List Nat) (n : Nat) :
    ∀ m ∈ edgeTargets g S D n, m ∈ D := by
  intro m hm
  unfold edgeTargets at hm
  split at hm
  · simp at hm
  · simpa using (List.mem_filter.1 hm).2

/-- Invariant preservation: removing a placed node from the worklist and
appending it to the placed list keeps every remaining node's in-view
dependencies inside `placed ∪ worklist`. -/
theorem closed_erase {g : Graph} {S D R acc : List Nat} {r : Nat}
    (hclosed : ∀ n ∈ R, ∀ m ∈ edgeTargets g S D n, m ∈ acc ∨ m ∈ R) :
    ∀ n ∈ R.erase r, ∀ m ∈ edgeTargets g S D n,
      m ∈ acc ++ [r] ∨ m ∈ R.erase r := by
  intro n hn m hm
  rcases hclosed n (List.mem_of_mem_erase hn) m hm with h1 | h1
  · exact Or.inl (List.mem_append_left _ h1)
  · by_cases hmr : m = r
    · exact Or.inl (List.mem_append_right _ (by simp [hmr]))
    · exact Or.inr ((List.mem_erase_of_ne hmr).2 h1)

/-- When no node of a non-empty worklist is ready, the in-view dependency
relation has a cycle: following, from any node, a dependency that is not yet
placed, one stays in the worklist forever, and the pigeonhole principle
closes a cycle. -/
theorem cycle_of_no_ready {g : Graph} {S D : List Nat} (R acc : List Nat)
    (hne : R ≠ [])
    (hclosed : ∀ n ∈ R, ∀ m ∈ edgeTargets g S D n, m ∈ acc ∨ m ∈ R)
    (hnoready : ∀ r ∈ R, ready g S D acc r = false) :
    ∃ n, Relation.TransGen (Edge g S D) n n := by
  classical
  -- a function picking, for each worklist node, an unplaced dependency
  set pick : Nat → Nat :=
    fun n => ((edgeTargets g S D n).filter (fun m => !decide (m ∈ acc))).headD 0 with hpick
  have hpick_spec : ∀ n ∈ R, pick n ∈ edgeTargets g S D n ∧ pick n ∉ acc ∧ pick n ∈ R := by
    intro n hn
    have h1 : ¬ ∀ m ∈ edgeTargets g S D n, m ∈ acc := by
      intro hall
      rw [← @ready_iff g S D acc n] at hall
      rw [hnoready n hn] at hall
      exact Bool.false_ne_true hall
    push_neg at h1
    obtain ⟨m, hm, hma⟩ := h1
    have hflt : m ∈ (edgeTargets g S D n).filter (fun m => !decide (m ∈ acc)) :=
      List.mem_filter.2 ⟨hm, by simpa using hma⟩
    have hnenil : (edgeTargets g S D n).filter (fun m => !decide (m ∈ acc)) ≠ [] := by
      intro hnil
      rw [hnil] at hflt
      simp at hflt
    have hhead : pick n ∈ (edgeTargets g S D n).filter (fun m => !decide (m ∈ acc)) := by
      cases hc : (edgeTargets g S D n).filter (fun m => !decide (m ∈ acc)) with
      | nil => exact absurd hc hnenil
      | cons y l =>
        show ((edgeTargets g S D n).filter (fun m => !decide (m ∈ acc))).headD 0 ∈ _
        rw [hc]
        simp
    have h2 := List.mem_filter.1 hhead
    have h3 : pick n ∉ acc := by simpa using h2.2
    rcases hclosed n hn (pick n) h2.1 with h4 | h4
    · exact absurd h4 h3
    · exact ⟨h2.1, h3, h4⟩
  obtain ⟨r0, hr0⟩ : ∃ r, r ∈ R := by
    cases R with
    | nil => exact absurd rfl hne
    | cons x l => exact ⟨x, by simp⟩
  have hmem : ∀ k, pick^[k] r0 ∈ R := by
    intro k
    induction k with
    | zero => exact hr0
    | succ k ih =>
      rw [Function.iterate_succ_apply']
      exact (hpick_spec _ ih).2.2
  have hedge : ∀ k, Edge g S D (pick^[k] r0) (pick^[k + 1] r0) := by
    intro k
    rw [Function.iterate_succ_apply']
    exact (hpick_spec _ (hmem k)).1
  have hchain : ∀ i k, Relation.TransGen (Edge g S D) (pick^[i] r0) (pick^[i + k + 1] r0) := by
    intro i k
    induction k with
    | zero => exact Relation.TransGen.single (hedge i)
    | succ k ih => exact Relation.TransGen.tail ih (hedge (i + k + 1))
  have hlt : ∀ i j, i < j →
      Relation.TransGen (Edge g S D) (pick^[i] r0) (pick^[j] r0) := by
    intro i j hij
    have h5 : j = i + (j - i - 1) + 1 := by omega
    rw [h5]
    exact hchain i (j - i - 1)
  have hcard : R.toFinset.card < (Finset.range (R.length + 1)).card := by
    rw [Finset.card_range]
    exact Nat.lt_succ_of_le (List.toFinset_card_le R)
  obtain ⟨i, _, j, _, hij, heq⟩ :=
    Finset.exists_ne_map_eq_of_card_lt_of_maps_to hcard
      (fun a _ => List.mem_toFinset.2 (hmem a))
  rcases hij.lt_or_lt with h6 | h6
  · exact ⟨pick^[i] r0, by nth_rewrite 2 [heq]; exact hlt i j h6⟩
  · exact ⟨pick^[j] r0, by nth_rewrite 2 [← heq]; exact hlt j i h6⟩

/-- When the in-view dependency relation on the discovered set is acyclic,
the placement loop always finds a ready node and terminates successfully. -/
theorem topoAux_ok {g : Graph} {S D : List Nat}
    (hacyc : ∀ n, ¬ Relation.TransGen (Edge g S D) n n) :
    ∀ (fuel : Nat) (R acc : List Nat), R.length ≤ fuel →
      (∀ n ∈ R, ∀ m ∈ edgeTargets g S D n, m ∈ acc ∨ m ∈ R) →
      ∃ out, topoAux g S D fuel R acc = .ok out := by
  intro fuel
  induction fuel with
  | zero =>
    intro R acc hlen _
    have hR : R = [] := List.length_eq_zero.1 (Nat.le_zero.1 hlen)
    subst hR
    exact ⟨acc, rfl⟩
  | succ fuel ih =>
    intro R acc hlen hclosed
    cases R with
    | nil => exact ⟨acc, rfl⟩
    | cons x R0 =>
      have hready : ∃ r ∈ x :: R0, ready g S D acc r = true := by
        by_contra hcon
        push_neg at hcon
        have hnoready : ∀ r ∈ x :: R0, ready g S D acc r = false := by
          intro r hr
          exact Bool.eq_false_iff.2 (hcon r hr)
        obtain ⟨n, hn⟩ := cycle_of_no_ready (x :: R0) acc (by simp) hclosed hnoready
        exact hacyc n hn
      have hsome : ((x :: R0).find? (ready g S D acc)).isSome := by
        rw [List.find?_isSome]
        obtain ⟨r, hr1, hr2⟩ := hready
        exact ⟨r, hr1, hr2⟩
      obtain ⟨r, hfind⟩ := Option.isSome_iff_exists.1 hsome
      have hrR : r ∈ x :: R0 := List.mem_of_find?_eq_some hfind
      have hstep : topoAux g S D (fuel + 1) (x :: R0) acc
          = topoAux g S D fuel ((x :: R0).erase r) (acc ++ [r]) := by
        simp [topoAux, hfind]
      rw [hstep]
      apply ih
      · have h7 := List.length_erase_of_mem hrR
        simp only [List.length_cons] at h7 hlen
        omega
      · exact closed_erase hclosed

/-- Whatever the placement loop returns on success extends the placed list by
a permutation of the worklist in which every node is preceded by all its
in-view dependencies. -/
theorem topoAux_out {g : Graph} {S D : List Nat} :
    ∀ (fuel : Nat) (R acc out : List Nat),
      topoAux g S D fuel R acc = .ok out →
      ∃ tail, out = acc ++ tail ∧ depsPrecede g S D acc tail = true ∧ tail.Perm R := by
  intro fuel
  induction fuel with
  | zero =>
    intro R acc out h
    cases R with
    | nil =>
      simp only [topoAux, Except.ok.injEq] at h
      exact ⟨[], by simp [h], rfl, List.Perm.refl []⟩
    | cons x R0 => simp [topoAux] at h
  | succ fuel ih =>
    intro R acc out h
    cases R with
    | nil =>
      simp only [topoAux, Except.ok.injEq] at h
      exact ⟨[], by simp [h], rfl, List.Perm.refl []⟩
    | cons x R0 =>
      cases hfind : (x :: R0).find? (ready g S D acc) with
      | none => simp [topoAux, hfind] at h
      | some r =>
        have h2 : topoAux g S D fuel ((x :: R0).erase r) (acc ++ [r]) = .ok out := by
          simpa [topoAux, hfind] using h
        obtain ⟨t2, hout, hdp, hperm⟩ := ih _ _ _ h2
        refine ⟨r :: t2, ?_, ?_, ?_⟩
        · rw [hout, List.append_assoc]
          rfl
        · show (ready g S D acc r && depsPrecede g S D (acc ++ [r]) t2) = true
          rw [List.find?_some hfind, hdp]
          rfl
        · have hrmem : r ∈ x :: R0 := List.mem_of_find?_eq_some hfind
          exact (hperm.cons r).trans (List.perm_cons_erase hrmem).symm

/-- C3: for every acyclic composition — the in-view dependency relation over
the discovered node set has no cycle — `compile()` succeeds and produces an
order over exactly the discovered node set (each node once) in which every
node appears after all of the nodes it depends on: its in-view operands
precede it. -/
theorem compile_acyclic_topo_order (g : Graph) (T S : List Nat)
    (hacyc : ∀ n, ¬ Relation.TransGen (Edge g S (discover g T S)) n n) :
    ∃ ord, compileOrder g T S = .ok ord
      ∧ (∀ x, x ∈ ord ↔ x ∈ discover g T S)
      ∧ ord.Nodup
      ∧ depsPrecede g S (discover g T S) [] ord = true := by
  obtain ⟨out, hout⟩ := topoAux_ok hacyc (discover g T S).length (discover g T S) []
    le_rfl (fun n _ m hm => Or.inr (edgeTargets_subset g S _ n m hm))
  obtain ⟨tl, htl, hdp, hperm⟩ := topoAux_out _ _ _ _ hout
  rw [List.nil_append] at htl
  subst htl
  exact ⟨out, hout, fun x => hperm.mem_iff,
    hperm.nodup_iff.2 (discover_nodup g T S), hdp⟩

theorem compile_acyclic_topo_order_witness :
    ∃ ord, compileOrder [] [0] [] = .ok ord
      ∧ (∀ x, x ∈ ord ↔ x ∈ discover [] [0] [])
      ∧ ord.Nodup
      ∧ depsPrecede [] [] (discover [] [0] []) [] ord = true := by
  refine compile_acyclic_topo_order [] [0] [] ?_
  intro n h
  have hedge : ∀ a b : Nat, ¬ Edge [] [] (discover [] [0] []) a b := by
    intro a b hb
    simp [Edge, edgeTargets, Graph.depsOf, Graph.find?, stopAt] at hb
  obtain ⟨c, hc1, _⟩ := Relation.TransGen.head'_iff.1 h
  exact hedge n c hc1

/-- No node on a dependency cycle is ever placed, so when the worklist holds
a node that the in-view relation can reach from itself, the placement loop
fails with `CyclicDependencyError`. -/
theorem topoAux_cyclic {g : Graph} {S D : List Nat} :
    ∀ (fuel : Nat) (R acc : List Nat),
      (∃ n ∈ R, Relation.TransGen (Edge g S D) n n) →
      (∀ n ∈ acc, ¬ Relation.TransGen (Edge g S D) n n) →
      (∀ n ∈ R, ∀ m ∈ edgeTargets g S D n, m ∈ acc ∨ m ∈ R) →
      topoAux g S D fuel R acc = .error .cyclicDependency := by
  intro fuel
  induction fuel with
  | zero =>
    intro R acc hin _ _
    obtain ⟨n, hnR, _⟩ := hin
    cases R with
    | nil => simp at hnR
    | cons x R0 => rfl
  | succ fuel ih =>
    intro R acc hin hacc hclosed
    obtain ⟨n0, hn0R, hn0c⟩ := hin
    cases R with
    | nil => simp at hn0R
    | cons x R0 =>
      cases hfind : (x :: R0).find? (ready g S D acc) with
      | none => simp [topoAux, hfind]
      | some r =>
        have hready := List.find?_some hfind
        -- a ready node cannot lie on a cycle: its first cycle edge would
        -- lead to an already placed node, which is cycle-free
        have hrnc : ¬ Relation.TransGen (Edge g S D) r r := by
          intro hcyc
          obtain ⟨c, hrc, hcr⟩ := Relation.TransGen.head'_iff.1 hcyc
          have hcc : Relation.TransGen (Edge g S D) c c :=
            Relation.TransGen.tail' hcr hrc
          have hcacc : c ∈ acc := ready_iff.1 hready c hrc
          exact hacc c hcacc hcc
        have hstep : topoAux g S D (fuel + 1) (x :: R0) acc
            = topoAux g S D fuel ((x :: R0).erase r) (acc ++ [r]) := by
          simp [topoAux, hfind]
        rw [hstep]
        apply ih
        · refine ⟨n0, ?_, hn0c⟩
          have hne : n0 ≠ r := fun he => hrnc (he ▸ hn0c)
          exact (List.mem_erase_of_ne hne).2 hn0R
        · intro m hm
          rcases List.mem_append.1 hm with h1 | h1
          · exact hacc m h1
          · simp only [List.mem_singleton] at h1
            subst h1
            exact hrnc
        · exact closed_erase hclosed

/-- Transport of a raw dependency cycle into the discovered set: the
discovered set is closed under the operand edges of non-stop members, so a
cycle of such edges starting at a discovered node stays discovered and is a
cycle of the in-view relation. -/
theorem transGen_edge_of_raw {g : Graph} {T S : List Nat} {a b : Nat}
    (h : Relation.TransGen (fun u v => stopAt S u = false ∧ v ∈ Graph.depsOf g u) a b)
    (ha : a ∈ discover g T S) :
    b ∈ discover g T S ∧ Relation.TransGen (Edge g S (discover g T S)) a b := by
  induction h with
  | single h1 =>
    have hb : _ ∈ discover g T S := discover_closed g T S ha h1.1 h1.2
    refine ⟨hb, Relation.TransGen.single ?_⟩
    unfold Edge edgeTargets
    rw [if_neg (by simp [h1.1])]
    exact List.mem_filter.2 ⟨h1.2, by simpa using hb⟩
  | tail _ h2 ih =>
    obtain ⟨hb, htg⟩ := ih
    have hc : _ ∈ discover g T S := discover_closed g T S hb h2.1 h2.2
    refine ⟨hc, Relation.TransGen.tail htg ?_⟩
    unfold Edge edgeTargets
    rw [if_neg (by simp [h2.1])]
    exact List.mem_filter.2 ⟨h2.2, by simpa using hc⟩

/-- C4: after re-seating a variable `v` with an expression through which `v`
depends on itself (directly or transitively, along operand edges of nodes
where the dependency walk does not stop), any `compile()` of a `Function`
that discovers `v` is rejected with `CyclicDependencyError`. -/
theorem compile_reseated_cycle (g : Graph) (v : Nat) (e : Expr) (T S : List Nat)
    (hv : v ∈ discover (Graph.setExpr g v e) T S)
    (hcyc : Relation.TransGen
      (fun u w => stopAt S u = false ∧ w ∈ Graph.depsOf (Graph.setExpr g v e) u) v v) :
    compileOrder (Graph.setExpr g v e) T S = .error .cyclicDependency := by
  have htg := (transGen_edge_of_raw hcyc hv).2
  unfold compileOrder
  apply topoAux_cyclic
  · exact ⟨v, hv, htg⟩
  · intro n hn
    simp at hn
  · exact fun n _ m hm => Or.inr (edgeTargets_subset _ _ _ n m hm)

theorem compile_reseated_cycle_witness :
    compileOrder (Graph.setExpr [(0, ⟨Expr.const 1, 1, 0⟩)] 0 (Expr.mul (.ref 0) (.const 2)))
        [0] [] = .error .cyclicDependency :=
  compile_reseated_cycle [(0, ⟨Expr.const 1, 1, 0⟩)] 0 (Expr.mul (.ref 0) (.const 2)) [0] []
    (by decide) (Relation.TransGen.single (by decide))

end AutoDiffPy
